import Mathlib

/-!
# Verification of the JSONL-Wizard conversation-store model

This development is a shallow embedding of the parse-and-edit state model of
the JSONL viewer/editor (`src/app/page.tsx`).  JavaScript strings are
modelled as `List Char`; JSON values (the results of `JSON.parse`) are
modelled by the inductive type `Json` below, with `JSONparse` a structural
JSON parser and `encodeV` the serialization performed by `JSON.stringify`.
Numbers are modelled exactly as mantissa/exponent pairs rather than IEEE
doubles; object fields keep their textual order, mirroring the insertion
order of JavaScript objects.
-/

namespace JsonlWizard

/-- The whitespace characters skipped by the JSON grammar
(`space`, `tab`, `line feed`, `carriage return`). -/
def isJsonWs (c : Char) : Bool :=
  c = ' ' || c = '\t' || c = '\n' || c = '\r'

/-- Whitespace recognised by JavaScript `String.prototype.trim` (ASCII part:
the JSON whitespace characters plus vertical tab and form feed). -/
def isTrimWs (c : Char) : Bool :=
  isJsonWs c || c = Char.ofNat 11 || c = Char.ofNat 12

/-- A line is blank when `line.trim() === ''`, i.e. all of its characters are
trim whitespace. -/
def blankLine (l : List Char) : Bool :=
  l.all isTrimWs

/-- The decimal digit character for a digit value `d < 10`. -/
def digitChar (d : Nat) : Char := Char.ofNat (48 + d)

/-- The lowercase hexadecimal digit character for a value `d < 16`. -/
def hexDigitChar (d : Nat) : Char :=
  if d < 10 then Char.ofNat (48 + d) else Char.ofNat (87 + d)

/-- Value of a hexadecimal digit character, as in the `\uXXXX` escapes of
`JSON.parse`. -/
def hexVal (c : Char) : Option Nat :=
  if c.isDigit then some (c.toNat - 48)
  else if 'a' ≤ c && c ≤ 'f' then some (c.toNat - 87)
  else if 'A' ≤ c && c ≤ 'F' then some (c.toNat - 55)
  else none

/-- Little-endian decimal digits of `n` (as characters), driven by fuel so the
definition computes by `rfl`.  `natDigitsRev fuel n` is correct once
`n ≤ fuel`. -/
def natDigitsRev : Nat → Nat → List Char
  | 0, _ => []
  | _ + 1, 0 => []
  | fuel + 1, n + 1 => digitChar ((n + 1) % 10) :: natDigitsRev fuel ((n + 1) / 10)

/-- Decimal representation of a natural number, most significant digit first,
as printed by JavaScript number-to-string conversion for naturals. -/
def natDigits (n : Nat) : List Char :=
  if n = 0 then ['0'] else (natDigitsRev n n).reverse

/-- Decimal representation of an integer (with leading `-` when negative). -/
def encInt (i : Int) : List Char :=
  if i < 0 then '-' :: natDigits i.natAbs else natDigits i.natAbs

/-- Consume a maximal run of decimal digits, folding them onto the
accumulator `acc` and counting them in `cnt`; returns
`(value, digitCount, rest)`. -/
def parseDigitsCnt (acc cnt : Nat) : List Char → Nat × Nat × List Char
  | [] => (acc, cnt, [])
  | c :: t =>
    if c.isDigit then parseDigitsCnt (10 * acc + (c.toNat - 48)) (cnt + 1) t
    else (acc, cnt, c :: t)

/-- The ECMA-262 overflow rule for converting a decimal literal to an
IEEE-754 double: round-to-nearest, ties to even, yields `Infinity` exactly
when the literal's value `mAbs * 10 ^ e` is at least
`2 ^ 1024 - 2 ^ 970 = 2 ^ 970 * (2 ^ 54 - 1)`, the midpoint between the
largest finite double and `2 ^ 1024` (the midpoint itself rounds up to the
even candidate).  Stated as an exact integer comparison. -/
def numTooBig (mAbs : Nat) (e : Int) : Bool :=
  if 0 ≤ e then decide (2 ^ 970 * (2 ^ 54 - 1) ≤ mAbs * 10 ^ e.toNat)
  else decide (2 ^ 970 * (2 ^ 54 - 1) * 10 ^ (-e).toNat ≤ mAbs)

mutual

/-- Structural JSON values, the results of `JSON.parse`.  A finite number is
kept exactly, as a mantissa/exponent pair `m * 10 ^ e`; a numeric literal
whose value overflows the IEEE-754 double range parses to `Infinity` or
`-Infinity` (`inf`), which `JSON.stringify` serializes as `null`; strings
are lists of characters; object fields keep their textual order (the
insertion order of the JavaScript object). -/
inductive Json : Type where
  | null : Json
  | bool (b : Bool) : Json
  | num (m e : Int) : Json
  | inf (neg : Bool) : Json
  | str (s : List Char) : Json
  | arr (elems : JsonList) : Json
  | obj (fields : JsonFields) : Json

/-- The element list of a JSON array. -/
inductive JsonList : Type where
  | nil : JsonList
  | cons (hd : Json) (tl : JsonList) : JsonList

/-- The field list of a JSON object. -/
inductive JsonFields : Type where
  | nil : JsonFields
  | cons (key : List Char) (val : Json) (tl : JsonFields) : JsonFields

end

deriving instance DecidableEq for Json
deriving instance Repr for Json

/-- The escape sequence emitted by `JSON.stringify` for one character:
quote, backslash and the common control characters get two-character escapes,
the remaining control characters get a `\u00XX` escape, and every other
character stands for itself. -/
def escapeChar (c : Char) : List Char :=
  if c = '"' then ['\\', '"']
  else if c = '\\' then ['\\', '\\']
  else if c = '\n' then ['\\', 'n']
  else if c = '\t' then ['\\', 't']
  else if c = '\r' then ['\\', 'r']
  else if c.toNat = 8 then ['\\', 'b']
  else if c.toNat = 12 then ['\\', 'f']
  else if c.toNat < 32 then
    ['\\', 'u', '0', '0', hexDigitChar (c.toNat / 16), hexDigitChar (c.toNat % 16)]
  else [c]

/-- The body of a serialized JSON string (without the surrounding quotes). -/
def escapeList : List Char → List Char
  | [] => []
  | c :: cs => escapeChar c ++ escapeList cs

/-- Serialized form of a JSON number `m * 10 ^ e`: the mantissa in decimal,
followed by an exponent part when `e ≠ 0`. -/
def encNum (m e : Int) : List Char :=
  encInt m ++ (if e = 0 then [] else 'e' :: encInt e)

mutual

/-- `JSON.stringify` of a JSON value (compact form, no added whitespace). -/
def encodeV : Json → List Char
  | .null => 'n' :: 'u' :: 'l' :: 'l' :: []
  | .bool true => 't' :: 'r' :: 'u' :: 'e' :: []
  | .bool false => 'f' :: 'a' :: 'l' :: 's' :: 'e' :: []
  | .num m e => encNum m e
  | .inf _ => 'n' :: 'u' :: 'l' :: 'l' :: []
  | .str s => '"' :: escapeList s ++ ['"']
  | .arr es => '[' :: encodeList es ++ [']']
  | .obj fs => '{' :: encodeFields fs ++ ['}']

/-- Comma-separated serialization of array elements. -/
def encodeList : JsonList → List Char
  | .nil => []
  | .cons v tl => encodeV v ++ sepTailL tl

/-- The continuation after one array element: nothing at the end,
otherwise a comma and the remaining elements. -/
def sepTailL : JsonList → List Char
  | .nil => []
  | .cons v tl => ',' :: (encodeV v ++ sepTailL tl)

/-- Comma-separated serialization of object fields (`"key":value`). -/
def encodeFields : JsonFields → List Char
  | .nil => []
  | .cons k v tl => '"' :: escapeList k ++ '"' :: ':' :: (encodeV v ++ sepTailF tl)

/-- The continuation after one object field. -/
def sepTailF : JsonFields → List Char
  | .nil => []
  | .cons k v tl => ',' :: ('"' :: escapeList k ++ '"' :: ':' :: (encodeV v ++ sepTailF tl))

end

mutual

/-- Syntactic size of a JSON value, used as a fuel bound for the parser. -/
def jsize : Json → Nat
  | .null => 1
  | .bool _ => 1
  | .num _ _ => 1
  | .inf _ => 1
  | .str _ => 1
  | .arr es => 1 + jsizeL es
  | .obj fs => 1 + jsizeF fs

/-- Syntactic size of an array element list. -/
def jsizeL : JsonList → Nat
  | .nil => 0
  | .cons v tl => jsize v + 1 + jsizeL tl

/-- Syntactic size of an object field list. -/
def jsizeF : JsonFields → Nat
  | .nil => 0
  | .cons _ v tl => jsize v + 1 + jsizeF tl

end

mutual

/-- What re-parsing the serialization of a value yields: finite numbers are
kept, a number whose value overflows the double range reads back as
`Infinity` with its sign, and `Infinity` itself (serialized as `null`) reads
back as `null`; everything else is preserved recursively. -/
def jnorm : Json → Json
  | .null => .null
  | .bool b => .bool b
  | .num m e => if numTooBig m.natAbs e then .inf (decide (m < 0)) else .num m e
  | .inf _ => .null
  | .str s => .str s
  | .arr es => .arr (jnormL es)
  | .obj fs => .obj (jnormF fs)

/-- `jnorm` on array elements. -/
def jnormL : JsonList → JsonList
  | .nil => .nil
  | .cons v tl => .cons (jnorm v) (jnormL tl)

/-- `jnorm` on object fields. -/
def jnormF : JsonFields → JsonFields
  | .nil => .nil
  | .cons k v tl => .cons k (jnorm v) (jnormF tl)

end

mutual

/-- Every number of the value is finite: no `Infinity` and no mantissa or
exponent outside the double range.  Exactly these values survive a
serialize/re-parse cycle unchanged. -/
def jfin : Json → Bool
  | .null => true
  | .bool _ => true
  | .num m e => !numTooBig m.natAbs e
  | .inf _ => false
  | .str _ => true
  | .arr es => jfinL es
  | .obj fs => jfinF fs

/-- `jfin` on array elements. -/
def jfinL : JsonList → Bool
  | .nil => true
  | .cons v tl => jfin v && jfinL tl

/-- `jfin` on object fields. -/
def jfinF : JsonFields → Bool
  | .nil => true
  | .cons _ v tl => jfin v && jfinF tl

end

/-- Skip JSON whitespace. -/
def skipWs : List Char → List Char
  | [] => []
  | c :: t => if isJsonWs c then skipWs t else c :: t

/-- The character denoted by a single-character escape sequence. -/
def unescapeChar (e : Char) : Option Char :=
  if e = '"' then some '"'
  else if e = '\\' then some '\\'
  else if e = '/' then some '/'
  else if e = 'n' then some '\n'
  else if e = 't' then some '\t'
  else if e = 'r' then some '\r'
  else if e = 'b' then some (Char.ofNat 8)
  else if e = 'f' then some (Char.ofNat 12)
  else none

/-- Parse the body of a JSON string after the opening quote, handling the
escape sequences of the JSON grammar; returns the decoded characters and the
input after the closing quote. -/
def parseStrChars : List Char → Option (List Char × List Char)
  | [] => none
  | c :: rest =>
    if c = '"' then some ([], rest)
    else if c = '\\' then
      match rest with
      | [] => none
      | e :: rest2 =>
        if e = 'u' then
          match rest2 with
          | h1 :: h2 :: h3 :: h4 :: rest3 =>
            match hexVal h1, hexVal h2, hexVal h3, hexVal h4 with
            | some a, some b, some c3, some d =>
              match parseStrChars rest3 with
              | some (s, r) => some (Char.ofNat (4096 * a + 256 * b + 16 * c3 + d) :: s, r)
              | none => none
            | _, _, _, _ => none
          | _ => none
        else
          match unescapeChar e with
          | some c2 =>
            match parseStrChars rest2 with
            | some (s, r) => some (c2 :: s, r)
            | none => none
          | none => none
    else
      match parseStrChars rest with
      | some (s, r) => some (c :: s, r)
      | none => none

/-- Parse the digit run of an exponent, applying the sign `esign` to its
value. -/
def parseExpDigits (m : Nat) (e0 : Int) (esign : Bool) (t2 : List Char) :
    Option (Nat × Int × List Char) :=
  match t2 with
  | [] => none
  | d :: _ =>
    if d.isDigit then
      match parseDigitsCnt 0 0 t2 with
      | (ex, _, r) => some (m, e0 + (if esign then -(ex : Int) else (ex : Int)), r)
    else none

/-- Parse the optional sign and the digits of an exponent. -/
def parseExpSign (m : Nat) (e0 : Int) (t : List Char) : Option (Nat × Int × List Char) :=
  match t with
  | [] => none
  | c :: u =>
    if c = '-' then parseExpDigits m e0 true u
    else if c = '+' then parseExpDigits m e0 false u
    else parseExpDigits m e0 false (c :: u)

/-- Parse the optional exponent part of a JSON number, given the mantissa `m`
and the exponent contribution `e0` of the fraction part. -/
def parseExpPart (m : Nat) (e0 : Int) : List Char → Option (Nat × Int × List Char)
  | [] => some (m, e0, [])
  | c :: t =>
    if c = 'e' || c = 'E' then parseExpSign m e0 t
    else some (m, e0, c :: t)

/-- Parse the unsigned part of a JSON number: integer digits, an optional
fraction, and an optional exponent; returns mantissa and exponent. -/
def parseNumCore (cs : List Char) : Option (Nat × Int × List Char) :=
  match cs with
  | [] => none
  | c :: _ =>
    if c.isDigit then
      match parseDigitsCnt 0 0 cs with
      | (n, _, cs2) =>
        match cs2 with
        | [] => some (n, 0, [])
        | c2 :: t =>
          if c2 = '.' then
            match t with
            | [] => none
            | d :: _ =>
              if d.isDigit then
                match parseDigitsCnt n 0 t with
                | (m, k, cs3) => parseExpPart m (-(k : Int)) cs3
              else none
          else parseExpPart n 0 (c2 :: t)
    else none

/-- Parse a JSON number (with optional leading minus sign).  As in
`JSON.parse`, a literal whose value overflows the double range yields
`Infinity` with the literal's sign. -/
def parseNum (cs : List Char) : Option (Json × List Char) :=
  match cs with
  | [] => none
  | c :: t =>
    if c = '-' then
      match parseNumCore t with
      | some (n, e, r) =>
        some (if numTooBig n e then Json.inf true else Json.num (-(n : Int)) e, r)
      | none => none
    else
      match parseNumCore (c :: t) with
      | some (n, e, r) =>
        some (if numTooBig n e then Json.inf false else Json.num (n : Int) e, r)
      | none => none

mutual

/-- Recursive-descent parser for one JSON value (fuel-driven; the callers
supply at least `jsize` of the value being read).  The input is expected to
start with a non-whitespace character. -/
def parseVal : Nat → List Char → Option (Json × List Char)
  | 0, _ => none
  | fuel + 1, cs =>
    match cs with
    | [] => none
    | c :: rest =>
      if c = 'n' then
        match rest with
        | 'u' :: 'l' :: 'l' :: r => some (Json.null, r)
        | _ => none
      else if c = 't' then
        match rest with
        | 'r' :: 'u' :: 'e' :: r => some (Json.bool true, r)
        | _ => none
      else if c = 'f' then
        match rest with
        | 'a' :: 'l' :: 's' :: 'e' :: r => some (Json.bool false, r)
        | _ => none
      else if c = '"' then
        match parseStrChars rest with
        | some (s, r) => some (Json.str s, r)
        | none => none
      else if c = '[' then
        match skipWs rest with
        | [] => none
        | c2 :: r2 =>
          if c2 = ']' then some (Json.arr .nil, r2)
          else
            match parseElems fuel (c2 :: r2) with
            | some (vs, r) => some (Json.arr vs, r)
            | none => none
      else if c = '{' then
        match skipWs rest with
        | [] => none
        | c2 :: r2 =>
          if c2 = '}' then some (Json.obj .nil, r2)
          else
            match parseFields fuel (c2 :: r2) with
            | some (fs, r) => some (Json.obj fs, r)
            | none => none
      else parseNum (c :: rest)

/-- Parse the non-empty element list of a JSON array, up to and including the
closing bracket. -/
def parseElems : Nat → List Char → Option (JsonList × List Char)
  | 0, _ => none
  | fuel + 1, cs =>
    match parseVal fuel cs with
    | none => none
    | some (v, r1) =>
      match skipWs r1 with
      | [] => none
      | c :: r2 =>
        if c = ',' then
          match parseElems fuel (skipWs r2) with
          | some (vs, r3) => some (.cons v vs, r3)
          | none => none
        else if c = ']' then some (.cons v .nil, r2)
        else none

/-- Parse the non-empty field list of a JSON object, up to and including the
closing brace. -/
def parseFields : Nat → List Char → Option (JsonFields × List Char)
  | 0, _ => none
  | fuel + 1, cs =>
    match cs with
    | [] => none
    | c0 :: r0 =>
      if c0 = '"' then
        match parseStrChars r0 with
        | none => none
        | some (k, r1) =>
          match skipWs r1 with
          | [] => none
          | c1 :: r2 =>
            if c1 = ':' then
              match parseVal fuel (skipWs r2) with
              | none => none
              | some (v, r3) =>
                match skipWs r3 with
                | [] => none
                | c2 :: r4 =>
                  if c2 = ',' then
                    match parseFields fuel (skipWs r4) with
                    | some (fs, r5) => some (.cons k v fs, r5)
                    | none => none
                  else if c2 = '}' then some (.cons k v .nil, r4)
                  else none
            else none
      else none

end

/-- `JSON.parse` of one line: leading and trailing whitespace is allowed,
and the whole input must be consumed by exactly one JSON value; any other
input raises (returns `none`). -/
def JSONparse (l : List Char) : Option Json :=
  match parseVal (l.length + 1) (skipWs l) with
  | some (v, rest) => if skipWs rest = [] then some v else none
  | none => none

/-- `content.split('\n')`: split a text into its lines at every newline
character; an input with `k` newlines yields `k + 1` lines. -/
def splitNl : List Char → List (List Char)
  | [] => [[]]
  | c :: cs =>
    if c = '\n' then [] :: splitNl cs
    else
      match splitNl cs with
      | [] => [[c]]
      | l :: ls => (c :: l) :: ls

/-- `lines.join('\n')`: interleave a newline between consecutive lines. -/
def joinNl : List (List Char) → List Char
  | [] => []
  | [l] => l
  | l :: ls => l ++ '\n' :: joinNl ls

/-- A parse error recorded by `parseContent`: the 1-based line number and the
original untrimmed text of a non-blank line that failed `JSON.parse`
(interface `ParsingError` of `page.tsx`). -/
structure ParsingError where
  line : Nat
  content : List Char
deriving DecidableEq, Repr

/-- The `lines.forEach` loop of `parseContent` (`page.tsx` lines 56-65),
carried out from the 0-based line index `idx`: blank lines are skipped,
every other line is parsed, successes are appended to the conversation list
and failures to the error list with their 1-based line number and original
text. -/
def parseLines : Nat → List (List Char) → List Json × List ParsingError
  | _, [] => ([], [])
  | idx, line :: rest =>
    let r := parseLines (idx + 1) rest
    if blankLine line then r
    else
      match JSONparse line with
      | some v => (v :: r.1, r.2)
      | none => (r.1, ⟨idx + 1, line⟩ :: r.2)

/-- `parseContent` (`page.tsx` lines 51-70): split the imported text into
lines and run the parsing loop, producing the new conversation collection
and error list. -/
def parseContent (content : List Char) : List Json × List ParsingError :=
  parseLines 0 (splitNl content)

/-- The serialized export text of `handleDownload` (`page.tsx` line 124):
`conversations.map(conv => JSON.stringify(conv)).join('\n')`. -/
def downloadCode (conversations : List Json) : List Char :=
  joinNl (conversations.map encodeV)

/-- The toast message shown when export is requested on an empty
collection. -/
def noDataMsg : List Char :=
  ("No data available to download. Please import or create some data first.").data

/-- `handleDownload` (`page.tsx` lines 114-134): with an empty collection the
operation raises the user-visible error toast and produces no file; otherwise
it produces the serialized export text.  The function reads the store but
performs no store mutation (the source calls no state setter here). -/
def handleDownload (conversations : List Json) : Except (List Char) (List Char) :=
  if conversations.length = 0 then .error noDataMsg
  else .ok (downloadCode conversations)

/-- Lowercasing of a JavaScript string (`toLowerCase`, ASCII part). -/
def lowerL (l : List Char) : List Char := l.map Char.toLower

/-- `haystack.includes(needle)`: substring containment. -/
def includesL (h n : List Char) : Bool :=
  n.isPrefixOf h ||
    match h with
    | [] => false
    | _ :: t => includesL t n

/-- The synthetic display label of the conversation at 0-based position
`index` of the unfiltered collection: `Conversation {index + 1}`. -/
def conversationLabel (index : Nat) : List Char :=
  ("Conversation ").data ++ natDigits (index + 1)

/-- The filter predicate of `filteredConversations` (`page.tsx` lines
138-143): the serialized conversation or its synthetic label contains the
lowercased query, case-insensitively. -/
def convMatches (lowerSearchTerm : List Char) (conv : Json) (index : Nat) : Bool :=
  includesL (lowerL (encodeV conv)) lowerSearchTerm ||
    includesL (lowerL (conversationLabel index)) lowerSearchTerm

/-- `Array.prototype.filter` with the element's index supplied to the
predicate, starting from index `i`. -/
def filterWithIndex (p : Json → Nat → Bool) : List Json → Nat → List Json
  | [], _ => []
  | c :: cs, i =>
    if p c i then c :: filterWithIndex p cs (i + 1) else filterWithIndex p cs (i + 1)

/-- `filteredConversations` (`page.tsx` lines 136-145): the derived view of
the collection under the current search term. -/
def filteredConversations (conversations : List Json) (searchTerm : List Char) : List Json :=
  filterWithIndex (convMatches (lowerL searchTerm)) conversations 0

/-- One message of a conversation (interface `Message` of `page.tsx`):
a role label and text content. -/
structure Message where
  role : List Char
  content : List Char
deriving DecidableEq, Repr

/-- One conversation (interface `Conversation` of `page.tsx`): an ordered
list of messages. -/
structure Conversation where
  messages : List Message
deriving DecidableEq, Repr

/-- The Conversation Store: the React state of `Page` (`page.tsx` lines
30-35).  The selected conversation is held as a value, as the source holds
the object itself rather than an index. -/
structure StoreState where
  conversations : List Conversation
  selectedConversation : Option Conversation
  searchTerm : List Char
  errors : List ParsingError
  editingMessage : Option Nat
  editedContent : List Char
deriving DecidableEq, Repr

/-- The store update performed at the end of `parseContent` (`page.tsx`
lines 67-69): the conversation collection and error list are replaced with
the parse results (the source casts each parsed line `as Conversation`) and
the selection is reset; no other field is written by the operation. -/
def parseContentStore (s : StoreState) (parsedConversations : List Conversation)
    (newErrors : List ParsingError) : StoreState :=
  { s with
    conversations := parsedConversations
    selectedConversation := none
    errors := newErrors }

/-- `handleConversationSelect` (`page.tsx` lines 72-75): select the
conversation at `index` (out-of-range access yields `undefined`, modelled by
`none`) and reset the edit target. -/
def handleConversationSelect (s : StoreState) (index : Nat) : StoreState :=
  { s with
    selectedConversation := s.conversations.get? index
    editingMessage := none }

/-- `updatedMessages[messageIndex] = { ...updatedMessages[messageIndex],
content: editedContent }` on a copied message array (`page.tsx` lines
85-92).  For an out-of-range index the source would build a malformed
message from `undefined`; the model is a no-op there, and the edit claims
are stated for valid indices only. -/
def editMessages (ms : List Message) (mi : Nat) (newContent : List Char) : List Message :=
  match ms.get? mi with
  | some m => ms.set mi { m with content := newContent }
  | none => ms

/-- `handleMessageEdit` (`page.tsx` lines 81-112): replace the content of
message `messageIndex` of conversation `conversationIndex` with the draft
text, apply the same replacement to the selected conversation's copy, and
clear the edit state. -/
def handleMessageEdit (s : StoreState) (conversationIndex messageIndex : Nat) : StoreState :=
  let conversations' :=
    match s.conversations.get? conversationIndex with
    | some conv =>
      s.conversations.set conversationIndex
        { conv with messages := editMessages conv.messages messageIndex s.editedContent }
    | none => s.conversations
  let selected' :=
    match s.selectedConversation with
    | some prev => some { prev with messages := editMessages prev.messages messageIndex s.editedContent }
    | none => none
  { s with
    conversations := conversations'
    selectedConversation := selected'
    editingMessage := none
    editedContent := [] }

/-- The input does not start with a decimal digit (so a digit run ends
here). -/
def headNotDigit : List Char → Bool
  | [] => true
  | c :: _ => !c.isDigit

/-- The input may legitimately follow a complete serialized JSON number: it
is empty or starts with a character that cannot extend the number token. -/
def delimOkB : List Char → Bool
  | [] => true
  | c :: _ => !c.isDigit && !(c = '.') && !(c = 'e') && !(c = 'E')

/-- The characters that can start a serialized JSON value. -/
def headOk (c : Char) : Bool :=
  c = 'n' || c = 't' || c = 'f' || c = '"' || c = '[' || c = '{' || c = '-' || c.isDigit

/-- A concrete store with an in-progress edit, used to exhibit that import
and selection do not clear the edit state. -/
def editingStore : StoreState :=
  { conversations := [⟨[⟨("user").data, ("hi").data⟩]⟩]
    selectedConversation := some ⟨[⟨("user").data, ("hi").data⟩]⟩
    searchTerm := []
    errors := []
    editingMessage := some 0
    editedContent := ("draft").data }

/-- A two-element collection of empty JSON objects, used to exhibit the
non-idempotence of the filter. -/
def twoEmptyObjs : List Json := [Json.obj .nil, Json.obj .nil]

/-- A sample message. -/
def msg1 : Message := ⟨('u' :: 's' :: 'e' :: 'r' :: []), ('h' :: 'i' :: [])⟩

/-- A sample one-message conversation. -/
def conv1 : Conversation := ⟨[msg1]⟩

/-- A concrete store holding `conv1`, with it selected and a pending draft. -/
def sampleStore : StoreState :=
  { conversations := [conv1]
    selectedConversation := some conv1
    searchTerm := []
    errors := []
    editingMessage := some 0
    editedContent := ('e' :: 'd' :: 'i' :: 't' :: []) }

theorem digitChar_toNat {d : Nat} (h : d < 10) : (digitChar d).toNat = 48 + d := by
  interval_cases d <;> decide

theorem digitChar_isDigit {d : Nat} (h : d < 10) : (digitChar d).isDigit = true := by
  interval_cases d <;> decide

theorem ne_of_isDigit {c d : Char} (h : c.isDigit = true) (hd : d.isDigit = false) :
    c ≠ d := by
  intro he
  rw [he, hd] at h
  exact Bool.noConfusion h

theorem hexVal_hexDigitChar {d : Nat} (h : d < 16) : hexVal (hexDigitChar d) = some d := by
  interval_cases d <;> decide

theorem natDigitsRev_foldr :
    ∀ (fuel n acc : Nat), n ≤ fuel →
      (natDigitsRev fuel n).foldr (fun c a => 10 * a + (c.toNat - 48)) acc =
        acc * 10 ^ (natDigitsRev fuel n).length + n
  | 0, n, acc, h => by
    have hn : n = 0 := Nat.le_zero.mp h
    subst hn
    simp [natDigitsRev]
  | fuel + 1, 0, acc, _ => by simp [natDigitsRev]
  | fuel + 1, n + 1, acc, h => by
    have hdiv : (n + 1) / 10 ≤ fuel := by
      have := Nat.div_lt_self (Nat.succ_pos n) (by omega : 1 < 10)
      omega
    have ih := natDigitsRev_foldr fuel ((n + 1) / 10) acc hdiv
    have hmod : (n + 1) % 10 < 10 := Nat.mod_lt _ (by omega)
    simp only [natDigitsRev, List.foldr_cons, List.length_cons, ih,
      digitChar_toNat hmod]
    have hdm : 10 * ((n + 1) / 10) + (n + 1) % 10 = n + 1 := Nat.div_add_mod _ _
    rw [pow_succ, ← mul_assoc]
    omega

theorem natDigitsRev_all_digit :
    ∀ (fuel n : Nat) (c : Char), c ∈ natDigitsRev fuel n → c.isDigit = true
  | 0, _, c, h => by simp [natDigitsRev] at h
  | fuel + 1, 0, c, h => by simp [natDigitsRev] at h
  | fuel + 1, n + 1, c, h => by
    simp only [natDigitsRev, List.mem_cons] at h
    rcases h with h | h
    · subst h
      exact digitChar_isDigit (Nat.mod_lt _ (by omega))
    · exact natDigitsRev_all_digit fuel ((n + 1) / 10) c h

theorem natDigitsRev_ne_nil {fuel n : Nat} (hn : 0 < n) (h : n ≤ fuel) :
    natDigitsRev fuel n ≠ [] := by
  cases fuel with
  | zero => omega
  | succ fuel =>
    cases n with
    | zero => omega
    | succ n => simp [natDigitsRev]

theorem natDigits_all_digit {n : Nat} {c : Char} (h : c ∈ natDigits n) :
    c.isDigit = true := by
  unfold natDigits at h
  by_cases hn : n = 0
  · simp [hn] at h
    subst h
    decide
  · simp [hn, List.mem_reverse] at h
    exact natDigitsRev_all_digit n n c h

theorem natDigits_ne_nil (n : Nat) : natDigits n ≠ [] := by
  unfold natDigits
  by_cases hn : n = 0
  · simp [hn]
  · simp only [hn, if_false]
    intro h
    exact natDigitsRev_ne_nil (Nat.pos_of_ne_zero hn) le_rfl (by
      simpa using congrArg List.reverse h)

theorem natDigits_foldl (n acc : Nat) :
    (natDigits n).foldl (fun a c => 10 * a + (c.toNat - 48)) acc =
      acc * 10 ^ (natDigits n).length + n := by
  unfold natDigits
  by_cases hn : n = 0
  · subst hn
    simp
    ring
  · simp only [hn, if_false, List.foldl_reverse, List.length_reverse]
    exact natDigitsRev_foldr n n acc le_rfl

theorem parseDigitsCnt_append :
    ∀ (ds : List Char) (acc cnt : Nat) (rest : List Char),
      (∀ c ∈ ds, c.isDigit = true) → headNotDigit rest = true →
      parseDigitsCnt acc cnt (ds ++ rest) =
        (ds.foldl (fun a c => 10 * a + (c.toNat - 48)) acc, cnt + ds.length, rest)
  | [], acc, cnt, rest, _, hrest => by
    cases rest with
    | nil => simp [parseDigitsCnt]
    | cons c t =>
      simp only [headNotDigit, Bool.not_eq_true'] at hrest
      simp [parseDigitsCnt, hrest]
  | d :: ds, acc, cnt, rest, hds, hrest => by
    have hd : d.isDigit = true := hds d (List.mem_cons_self d ds)
    simp only [List.cons_append, parseDigitsCnt, hd, if_true, List.foldl_cons,
      List.append_eq]
    rw [parseDigitsCnt_append ds _ _ rest (fun c hc => hds c (List.mem_cons_of_mem d hc)) hrest]
    simp only [List.length_cons, Prod.mk.injEq]
    exact ⟨trivial, by omega, trivial⟩

theorem parseDigitsCnt_natDigits (n acc cnt : Nat) (rest : List Char)
    (hrest : headNotDigit rest = true) :
    parseDigitsCnt acc cnt (natDigits n ++ rest) =
      (acc * 10 ^ (natDigits n).length + n, cnt + (natDigits n).length, rest) := by
  rw [parseDigitsCnt_append (natDigits n) acc cnt rest (fun c hc => natDigits_all_digit hc) hrest,
    natDigits_foldl]

theorem natDigits_head_digit (n : Nat) :
    ∃ d ds, natDigits n = d :: ds ∧ d.isDigit = true := by
  cases hd : natDigits n with
  | nil => exact absurd hd (natDigits_ne_nil n)
  | cons d ds =>
    exact ⟨d, ds, rfl, natDigits_all_digit (hd ▸ List.mem_cons_self d ds)⟩

theorem headNotDigit_of_delimOkB {rest : List Char} (h : delimOkB rest = true) :
    headNotDigit rest = true := by
  cases rest with
  | nil => rfl
  | cons c t =>
    simp only [delimOkB, Bool.and_eq_true] at h
    simp [headNotDigit, h.1.1.1]

theorem parseExpPart_delim (m : Nat) (e0 : Int) {rest : List Char}
    (h : delimOkB rest = true) : parseExpPart m e0 rest = some (m, e0, rest) := by
  cases rest with
  | nil => rfl
  | cons c t =>
    simp only [delimOkB, Bool.and_eq_true, Bool.not_eq_true', decide_eq_false_iff_not] at h
    have he : (c = 'e' || c = 'E') = false := by
      simp [h.1.2, h.2]
    simp [parseExpPart, he]

theorem parseExpDigits_natDigits (m : Nat) (e0 : Int) (esign : Bool) (k : Nat)
    {rest : List Char} (h : headNotDigit rest = true) :
    parseExpDigits m e0 esign (natDigits k ++ rest) =
      some (m, e0 + (if esign then -(k : Int) else (k : Int)), rest) := by
  obtain ⟨d, ds, hd, hdig⟩ := natDigits_head_digit k
  rw [hd]
  simp only [List.cons_append, parseExpDigits, hdig, if_true]
  have := parseDigitsCnt_natDigits k 0 0 rest h
  rw [hd] at this
  simp only [List.cons_append] at this
  rw [this]
  simp

theorem parseExpSign_encInt (m : Nat) (e0 e : Int) {rest : List Char}
    (h : headNotDigit rest = true) :
    parseExpSign m e0 (encInt e ++ rest) = some (m, e0 + e, rest) := by
  unfold encInt
  by_cases hneg : e < 0
  · simp only [hneg, if_true, List.cons_append, parseExpSign, if_pos rfl]
    rw [parseExpDigits_natDigits m e0 true e.natAbs h]
    simp only [if_true]
    have : -((e.natAbs : Nat) : Int) = e := by omega
    rw [this]
  · obtain ⟨d, ds, hd, hdig⟩ := natDigits_head_digit e.natAbs
    simp only [hneg, if_false, hd, List.cons_append, parseExpSign]
    have hne1 : d ≠ '-' := ne_of_isDigit hdig (by decide)
    have hne2 : d ≠ '+' := ne_of_isDigit hdig (by decide)
    rw [if_neg hne1, if_neg hne2, ← List.cons_append, ← hd,
      parseExpDigits_natDigits m e0 false e.natAbs h]
    simp only [if_false, Bool.false_eq_true]
    have : ((e.natAbs : Nat) : Int) = e := by omega
    rw [this]

/-- The serialized exponent part of a JSON number. -/
theorem parseNumCore_enc (n : Nat) (e : Int) {rest : List Char}
    (h : delimOkB rest = true) :
    parseNumCore (natDigits n ++ (if e = 0 then [] else 'e' :: encInt e) ++ rest) =
      some (n, e, rest) := by
  obtain ⟨d, ds, hd, hdig⟩ := natDigits_head_digit n
  have htail : headNotDigit ((if e = 0 then [] else 'e' :: encInt e) ++ rest) = true := by
    by_cases he : e = 0
    · simpa [he] using headNotDigit_of_delimOkB h
    · simp [he, headNotDigit]
  have hcnt := parseDigitsCnt_natDigits n 0 0 _ htail
  rw [hd] at hcnt ⊢
  simp only [List.append_assoc, List.cons_append, parseNumCore, hdig, if_true]
  simp only [List.cons_append] at hcnt
  rw [hcnt]
  simp only [Nat.zero_mul, Nat.zero_add]
  by_cases he : e = 0
  · subst he
    simp only [if_true, List.nil_append]
    cases rest with
    | nil => rfl
    | cons c t =>
      simp only [delimOkB, Bool.and_eq_true, Bool.not_eq_true',
        decide_eq_false_iff_not] at h
      have hexp := @parseExpPart_delim n 0 (c :: t)
        (by simp [delimOkB, h.1.1.1, h.1.1.2, h.1.2, h.2])
      simp [h.1.1.2, hexp]
  · simp only [he, if_false, List.cons_append]
    rw [if_neg (by decide : ¬ ('e' : Char) = '.')]
    simp only [parseExpPart, if_pos (by decide : ('e' = 'e' || 'e' = 'E') = true)]
    rw [parseExpSign_encInt n 0 e (headNotDigit_of_delimOkB h)]
    simp

theorem parseNum_encNum (m e : Int) {rest : List Char} (h : delimOkB rest = true) :
    parseNum (encNum m e ++ rest) = some (jnorm (Json.num m e), rest) := by
  by_cases hneg : m < 0
  · have henc : encNum m e ++ rest =
        '-' :: (natDigits m.natAbs ++ (if e = 0 then [] else 'e' :: encInt e) ++ rest) := by
      simp [encNum, encInt, hneg]
    rw [henc]
    simp only [parseNum, if_pos rfl]
    rw [parseNumCore_enc m.natAbs e h]
    show some ((if numTooBig m.natAbs e then Json.inf true
        else Json.num (-((m.natAbs : Nat) : Int)) e), rest) =
      some (jnorm (Json.num m e), rest)
    have hcast : -((m.natAbs : Nat) : Int) = m := by omega
    by_cases htb : numTooBig m.natAbs e
    · simp [jnorm, htb, hneg]
    · rw [hcast]
      simp [jnorm, htb]
  · obtain ⟨d, ds, hd, hdig⟩ := natDigits_head_digit m.natAbs
    have henc : encNum m e ++ rest =
        d :: (ds ++ ((if e = 0 then [] else 'e' :: encInt e) ++ rest)) := by
      simp [encNum, encInt, hneg, hd]
    rw [henc]
    simp only [parseNum]
    rw [if_neg (ne_of_isDigit hdig (by decide) : d ≠ '-')]
    have hfuse : d :: (ds ++ ((if e = 0 then [] else 'e' :: encInt e) ++ rest)) =
        natDigits m.natAbs ++ (if e = 0 then [] else 'e' :: encInt e) ++ rest := by
      simp [hd]
    rw [hfuse, parseNumCore_enc m.natAbs e h]
    show some ((if numTooBig m.natAbs e then Json.inf false
        else Json.num ((m.natAbs : Nat) : Int) e), rest) =
      some (jnorm (Json.num m e), rest)
    have hcast : ((m.natAbs : Nat) : Int) = m := by omega
    by_cases htb : numTooBig m.natAbs e
    · simp [jnorm, htb, hneg]
    · rw [hcast]
      simp [jnorm, htb]

theorem parseStrChars_quote (rest : List Char) :
    parseStrChars ('"' :: rest) = some ([], rest) := by
  rw [parseStrChars.eq_def]
  simp

theorem parseStrChars_esc {e c2 : Char} {rest s r : List Char} (hne : e ≠ 'u')
    (hu : unescapeChar e = some c2) (hp : parseStrChars rest = some (s, r)) :
    parseStrChars ('\\' :: e :: rest) = some (c2 :: s, r) := by
  rw [parseStrChars.eq_def]
  simp [hne, hu, hp]

theorem parseStrChars_u {h3 h4 : Char} {a b : Nat} {rest s r : List Char}
    (ha : hexVal h3 = some a) (hb : hexVal h4 = some b)
    (hp : parseStrChars rest = some (s, r)) :
    parseStrChars ('\\' :: 'u' :: '0' :: '0' :: h3 :: h4 :: rest) =
      some (Char.ofNat (4096 * 0 + 256 * 0 + 16 * a + b) :: s, r) := by
  rw [parseStrChars.eq_def]
  simp [ha, hb, hp, (by decide : hexVal '0' = some 0)]

theorem parseStrChars_raw {c : Char} {rest s r : List Char} (h1 : c ≠ '"')
    (h2 : c ≠ '\\') (hp : parseStrChars rest = some (s, r)) :
    parseStrChars (c :: rest) = some (c :: s, r) := by
  rw [parseStrChars.eq_def]
  simp [h1, h2, hp]

theorem parseStr_escape :
    ∀ (s rest : List Char), parseStrChars (escapeList s ++ '"' :: rest) = some (s, rest)
  | [], rest => by
    simp only [escapeList, List.nil_append]
    exact parseStrChars_quote rest
  | c :: s, rest => by
    have ih := parseStr_escape s rest
    simp only [escapeList, List.append_assoc]
    by_cases h1 : c = '"'
    · subst h1
      have henc : escapeChar '"' = ['\\', '"'] := by decide
      rw [henc]
      exact parseStrChars_esc (by decide) (by decide) ih
    · by_cases h2 : c = '\\'
      · subst h2
        have henc : escapeChar '\\' = ['\\', '\\'] := by decide
        rw [henc]
        exact parseStrChars_esc (by decide) (by decide) ih
      · by_cases h3 : c = '\n'
        · subst h3
          have henc : escapeChar '\n' = ['\\', 'n'] := by decide
          rw [henc]
          exact parseStrChars_esc (by decide) (by decide) ih
        · by_cases h4 : c = '\t'
          · subst h4
            have henc : escapeChar '\t' = ['\\', 't'] := by decide
            rw [henc]
            exact parseStrChars_esc (by decide) (by decide) ih
          · by_cases h5 : c = '\r'
            · subst h5
              have henc : escapeChar '\r' = ['\\', 'r'] := by decide
              rw [henc]
              exact parseStrChars_esc (by decide) (by decide) ih
            · by_cases h6 : c.toNat = 8
              · have hc : c = Char.ofNat 8 := by rw [← Char.ofNat_toNat c, h6]
                subst hc
                have henc : escapeChar (Char.ofNat 8) = ['\\', 'b'] := by decide
                rw [henc]
                exact parseStrChars_esc (by decide) (by decide) ih
              · by_cases h7 : c.toNat = 12
                · have hc : c = Char.ofNat 12 := by rw [← Char.ofNat_toNat c, h7]
                  subst hc
                  have henc : escapeChar (Char.ofNat 12) = ['\\', 'f'] := by decide
                  rw [henc]
                  exact parseStrChars_esc (by decide) (by decide) ih
                · by_cases h8 : c.toNat < 32
                  · have hdiv : c.toNat / 16 < 16 := by omega
                    have hmod : c.toNat % 16 < 16 := Nat.mod_lt _ (by omega)
                    have henc : escapeChar c =
                        ['\\', 'u', '0', '0', hexDigitChar (c.toNat / 16),
                          hexDigitChar (c.toNat % 16)] := by
                      simp [escapeChar, h1, h2, h3, h4, h5, h6, h7, h8]
                    rw [henc, List.cons_append, List.cons_append, List.cons_append,
                      List.cons_append, List.cons_append, List.cons_append, List.nil_append,
                      parseStrChars_u (hexVal_hexDigitChar hdiv) (hexVal_hexDigitChar hmod) ih]
                    have hval : 4096 * 0 + 256 * 0 + 16 * (c.toNat / 16) + c.toNat % 16 =
                        c.toNat := by omega
                    rw [hval, Char.ofNat_toNat]
                  · have henc : escapeChar c = [c] := by
                      simp [escapeChar, h1, h2, h3, h4, h5, h6, h7, h8]
                    rw [henc, List.cons_append, List.nil_append,
                      parseStrChars_raw h1 h2 ih]

theorem skipWs_not_ws {c : Char} (t : List Char) (h : isJsonWs c = false) :
    skipWs (c :: t) = c :: t := by
  simp [skipWs, h]

theorem headOk_not_jsonWs {c : Char} (h : headOk c = true) : isJsonWs c = false := by
  simp only [headOk, Bool.or_eq_true, decide_eq_true_eq] at h
  rcases h with ((((((h | h) | h) | h) | h) | h) | h) | h
  · subst h; decide
  · subst h; decide
  · subst h; decide
  · subst h; decide
  · subst h; decide
  · subst h; decide
  · subst h; decide
  · simp [isJsonWs, (ne_of_isDigit h (by decide) : c ≠ ' '),
      (ne_of_isDigit h (by decide) : c ≠ '\t'),
      (ne_of_isDigit h (by decide) : c ≠ '\n'),
      (ne_of_isDigit h (by decide) : c ≠ '\r')]

theorem headOk_not_trimWs {c : Char} (h : headOk c = true) : isTrimWs c = false := by
  have hjs := headOk_not_jsonWs h
  simp only [headOk, Bool.or_eq_true, decide_eq_true_eq] at h
  rcases h with ((((((h | h) | h) | h) | h) | h) | h) | h
  · subst h; decide
  · subst h; decide
  · subst h; decide
  · subst h; decide
  · subst h; decide
  · subst h; decide
  · subst h; decide
  · simp [isTrimWs, hjs, (ne_of_isDigit h (by decide) : c ≠ Char.ofNat 11),
      (ne_of_isDigit h (by decide) : c ≠ Char.ofNat 12)]

theorem headOk_ne_close {c : Char} (h : headOk c = true) :
    c ≠ ']' ∧ c ≠ '}' := by
  simp only [headOk, Bool.or_eq_true, decide_eq_true_eq] at h
  rcases h with ((((((h | h) | h) | h) | h) | h) | h) | h
  · subst h; exact ⟨by decide, by decide⟩
  · subst h; exact ⟨by decide, by decide⟩
  · subst h; exact ⟨by decide, by decide⟩
  · subst h; exact ⟨by decide, by decide⟩
  · subst h; exact ⟨by decide, by decide⟩
  · subst h; exact ⟨by decide, by decide⟩
  · subst h; exact ⟨by decide, by decide⟩
  · exact ⟨ne_of_isDigit h (by decide), ne_of_isDigit h (by decide)⟩

theorem encNum_head (m e : Int) :
    ∃ c t, encNum m e = c :: t ∧ (c = '-' ∨ c.isDigit = true) := by
  by_cases hneg : m < 0
  · refine ⟨'-', natDigits m.natAbs ++ (if e = 0 then [] else 'e' :: encInt e),
      ?_, Or.inl rfl⟩
    simp [encNum, encInt, hneg]
  · obtain ⟨d, ds, hd, hdig⟩ := natDigits_head_digit m.natAbs
    refine ⟨d, ds ++ (if e = 0 then [] else 'e' :: encInt e), ?_, Or.inr hdig⟩
    simp [encNum, encInt, hneg, hd]

theorem encodeV_head (v : Json) :
    ∃ c t, encodeV v = c :: t ∧ headOk c = true := by
  cases v with
  | null => exact ⟨'n', _, rfl, by decide⟩
  | bool b => cases b with
    | true => exact ⟨'t', _, rfl, by decide⟩
    | false => exact ⟨'f', _, rfl, by decide⟩
  | num m e =>
    obtain ⟨c, t, hct, hd⟩ := encNum_head m e
    refine ⟨c, t, by simp [encodeV, hct], ?_⟩
    rcases hd with h | h
    · subst h; decide
    · simp [headOk, h]
  | inf b => exact ⟨'n', _, rfl, by decide⟩
  | str s => exact ⟨'"', _, rfl, by decide⟩
  | arr es => exact ⟨'[', _, rfl, by decide⟩
  | obj fs => exact ⟨'{', _, rfl, by decide⟩

theorem num_head_ne {c : Char} (hd : c = '-' ∨ c.isDigit = true) :
    c ≠ 'n' ∧ c ≠ 't' ∧ c ≠ 'f' ∧ c ≠ '"' ∧ c ≠ '[' ∧ c ≠ '{' := by
  rcases hd with h | h
  · subst h
    exact ⟨by decide, by decide, by decide, by decide, by decide, by decide⟩
  · exact ⟨ne_of_isDigit h (by decide), ne_of_isDigit h (by decide),
      ne_of_isDigit h (by decide), ne_of_isDigit h (by decide),
      ne_of_isDigit h (by decide), ne_of_isDigit h (by decide)⟩

theorem delimOkB_close (c : Char) (r : List Char)
    (h1 : c.isDigit = false) (h2 : c ≠ '.') (h3 : c ≠ 'e') (h4 : c ≠ 'E') :
    delimOkB (c :: r) = true := by
  simp [delimOkB, h1, h2, h3, h4]

theorem delimOkB_sepTailL (tl : JsonList) (r : List Char) :
    delimOkB (sepTailL tl ++ ']' :: r) = true := by
  cases tl with
  | nil => exact delimOkB_close ']' r (by decide) (by decide) (by decide) (by decide)
  | cons v tl =>
    simp only [sepTailL, List.cons_append]
    exact delimOkB_close ',' _ (by decide) (by decide) (by decide) (by decide)

theorem delimOkB_sepTailF (tl : JsonFields) (r : List Char) :
    delimOkB (sepTailF tl ++ '}' :: r) = true := by
  cases tl with
  | nil => exact delimOkB_close '}' r (by decide) (by decide) (by decide) (by decide)
  | cons k v tl =>
    simp only [sepTailF, List.cons_append]
    exact delimOkB_close ',' _ (by decide) (by decide) (by decide) (by decide)

theorem jsize_pos (v : Json) : 0 < jsize v := by
  cases v <;> simp [jsize]

theorem jsizeL_pos {vs : JsonList} (h : vs ≠ .nil) : 0 < jsizeL vs := by
  cases vs with
  | nil => exact absurd rfl h
  | cons v tl =>
    have := jsize_pos v
    simp [jsizeL]

theorem jsizeF_pos {fs : JsonFields} (h : fs ≠ .nil) : 0 < jsizeF fs := by
  cases fs with
  | nil => exact absurd rfl h
  | cons k v tl =>
    have := jsize_pos v
    simp [jsizeF]

theorem parse_encode_all : ∀ fuel : Nat,
    (∀ v rest, jsize v ≤ fuel → delimOkB rest = true →
      parseVal fuel (encodeV v ++ rest) = some (jnorm v, rest)) ∧
    (∀ vs rest, vs ≠ JsonList.nil → jsizeL vs ≤ fuel →
      parseElems fuel (encodeList vs ++ ']' :: rest) = some (jnormL vs, rest)) ∧
    (∀ fs rest, fs ≠ JsonFields.nil → jsizeF fs ≤ fuel →
      parseFields fuel (encodeFields fs ++ '}' :: rest) = some (jnormF fs, rest)) := by
  intro fuel
  induction fuel using Nat.strong_induction_on with
  | _ fuel ih =>
    match fuel with
    | 0 =>
      refine ⟨?_, ?_, ?_⟩
      · intro v rest hsz _
        exact absurd hsz (by have := jsize_pos v; omega)
      · intro vs rest hne hsz
        exact absurd hsz (by have := jsizeL_pos hne; omega)
      · intro fs rest hne hsz
        exact absurd hsz (by have := jsizeF_pos hne; omega)
    | f + 1 =>
      obtain ⟨ihV, ihE, ihF⟩ := ih f (Nat.lt_succ_self f)
      refine ⟨?_, ?_, ?_⟩
      · -- one JSON value
        intro v rest hsz hdel
        cases v with
        | null => simp [encodeV, parseVal, jnorm]
        | bool b => cases b <;> simp [encodeV, parseVal, jnorm]
        | inf b => simp [encodeV, parseVal, jnorm]
        | num m e =>
          obtain ⟨c, t, hct, hd⟩ := encNum_head m e
          obtain ⟨hn1, hn2, hn3, hn4, hn5, hn6⟩ := num_head_ne hd
          have henc : encodeV (Json.num m e) ++ rest = c :: (t ++ rest) := by
            simp [encodeV, hct]
          rw [henc]
          simp only [parseVal, if_neg hn1, if_neg hn2, if_neg hn3, if_neg hn4,
            if_neg hn5, if_neg hn6]
          rw [show c :: (t ++ rest) = encNum m e ++ rest by simp [hct]]
          exact parseNum_encNum m e hdel
        | str s =>
          have henc : encodeV (Json.str s) ++ rest =
              '"' :: (escapeList s ++ '"' :: rest) := by
            simp [encodeV]
          rw [henc]
          simp [parseVal, parseStr_escape s rest, jnorm]
        | arr es =>
          cases es with
          | nil =>
            have henc : encodeV (Json.arr .nil) ++ rest = '[' :: ']' :: rest := by
              simp [encodeV, encodeList]
            rw [henc]
            simp [parseVal, skipWs, isJsonWs, jnorm, jnormL]
          | cons v tl =>
            obtain ⟨c, t, hct, hok⟩ := encodeV_head v
            have henc : encodeV (Json.arr (.cons v tl)) ++ rest =
                '[' :: (c :: (t ++ (sepTailL tl ++ ']' :: rest))) := by
              simp [encodeV, encodeList, hct]
            have hsz2 : jsizeL (JsonList.cons v tl) ≤ f := by
              simp only [jsize] at hsz
              omega
            have hE := ihE (.cons v tl) rest (fun h => JsonList.noConfusion h) hsz2
            have hfuse : c :: (t ++ (sepTailL tl ++ ']' :: rest)) =
                encodeList (JsonList.cons v tl) ++ ']' :: rest := by
              simp [encodeList, hct]
            rw [henc]
            simp only [parseVal]
            rw [skipWs_not_ws _ (headOk_not_jsonWs hok)]
            simp [(headOk_ne_close hok).1, hfuse, hE, jnorm]
        | obj fs =>
          cases fs with
          | nil =>
            have henc : encodeV (Json.obj .nil) ++ rest = '{' :: '}' :: rest := by
              simp [encodeV, encodeFields]
            rw [henc]
            simp [parseVal, skipWs, isJsonWs, jnorm, jnormF]
          | cons k v tl =>
            have hsz2 : jsizeF (JsonFields.cons k v tl) ≤ f := by
              simp only [jsize] at hsz
              omega
            have hF := ihF (.cons k v tl) rest (fun h => JsonFields.noConfusion h) hsz2
            have hfields : encodeFields (JsonFields.cons k v tl) ++ '}' :: rest =
                '"' :: (escapeList k ++ '"' :: ':' ::
                  (encodeV v ++ (sepTailF tl ++ '}' :: rest))) := by
              simp [encodeFields]
            rw [hfields] at hF
            have henc : encodeV (Json.obj (.cons k v tl)) ++ rest =
                '{' :: ('"' :: (escapeList k ++ '"' :: ':' ::
                  (encodeV v ++ (sepTailF tl ++ '}' :: rest)))) := by
              simp [encodeV, encodeFields]
            rw [henc]
            simp only [parseVal]
            rw [skipWs_not_ws _ (by decide : isJsonWs '"' = false)]
            simp [hF, jnorm]
      · -- array elements
        intro vs rest hne hsz
        cases vs with
        | nil => exact absurd rfl hne
        | cons v tl =>
          obtain ⟨c, t, hct, hok⟩ := encodeV_head v
          have hszv : jsize v ≤ f := by
            simp only [jsizeL] at hsz
            omega
          have hV := ihV v (sepTailL tl ++ ']' :: rest) hszv (delimOkB_sepTailL tl rest)
          have henc : encodeList (JsonList.cons v tl) ++ ']' :: rest =
              encodeV v ++ (sepTailL tl ++ ']' :: rest) := by
            simp [encodeList]
          rw [henc]
          simp only [parseElems]
          rw [hV]
          cases tl with
          | nil => simp [sepTailL, skipWs, isJsonWs, jnormL]
          | cons v2 tl2 =>
            obtain ⟨c2, t2, hct2, hok2⟩ := encodeV_head v2
            have hsz3 : jsizeL (JsonList.cons v2 tl2) ≤ f := by
              simp only [jsizeL] at hsz ⊢
              have := jsize_pos v
              omega
            have hE2 := ihE (.cons v2 tl2) rest (fun h => JsonList.noConfusion h) hsz3
            have hexpose : encodeList (JsonList.cons v2 tl2) ++ ']' :: rest =
                c2 :: (t2 ++ (sepTailL tl2 ++ ']' :: rest)) := by
              simp [encodeList, hct2]
            rw [hexpose] at hE2
            have hsep : sepTailL (JsonList.cons v2 tl2) ++ ']' :: rest =
                ',' :: (c2 :: (t2 ++ (sepTailL tl2 ++ ']' :: rest))) := by
              simp [sepTailL, hct2]
            have hsw2 : isJsonWs c2 = false := headOk_not_jsonWs hok2
            simp [hsep, skipWs_not_ws, hsw2, hE2, jnormL,
              (by decide : isJsonWs ',' = false)]
      · -- object fields
        intro fs rest hne hsz
        cases fs with
        | nil => exact absurd rfl hne
        | cons k v tl =>
          obtain ⟨c, t, hct, hok⟩ := encodeV_head v
          have hszv : jsize v ≤ f := by
            simp only [jsizeF] at hsz
            omega
          have hV := ihV v (sepTailF tl ++ '}' :: rest) hszv (delimOkB_sepTailF tl rest)
          have henc : encodeFields (JsonFields.cons k v tl) ++ '}' :: rest =
              '"' :: (escapeList k ++ '"' ::
                (':' :: (encodeV v ++ (sepTailF tl ++ '}' :: rest)))) := by
            simp [encodeFields]
          have hstr := parseStr_escape k (':' :: (encodeV v ++ (sepTailF tl ++ '}' :: rest)))
          have hswV : skipWs (encodeV v ++ (sepTailF tl ++ '}' :: rest)) =
              encodeV v ++ (sepTailF tl ++ '}' :: rest) := by
            rw [hct, List.cons_append]
            exact skipWs_not_ws _ (headOk_not_jsonWs hok)
          rw [henc]
          simp only [parseFields]
          simp [hstr, hswV, hV, skipWs_not_ws, jnormF,
            (by decide : isJsonWs ':' = false)]
          cases tl with
          | nil => simp [sepTailF, skipWs, isJsonWs, jnormF]
          | cons k2 v2 tl2 =>
            have hsz3 : jsizeF (JsonFields.cons k2 v2 tl2) ≤ f := by
              simp only [jsizeF] at hsz ⊢
              have := jsize_pos v
              omega
            have hF2 := ihF (.cons k2 v2 tl2) rest (fun h => JsonFields.noConfusion h) hsz3
            have hfld2 : encodeFields (JsonFields.cons k2 v2 tl2) ++ '}' :: rest =
                '"' :: (escapeList k2 ++ '"' ::
                  (':' :: (encodeV v2 ++ (sepTailF tl2 ++ '}' :: rest)))) := by
              simp [encodeFields]
            rw [hfld2] at hF2
            have hsep : sepTailF (JsonFields.cons k2 v2 tl2) ++ '}' :: rest =
                ',' :: ('"' :: (escapeList k2 ++ '"' ::
                  (':' :: (encodeV v2 ++ (sepTailF tl2 ++ '}' :: rest))))) := by
              simp [sepTailF]
            simp [hsep, skipWs_not_ws, hF2, jnormF,
              (by decide : isJsonWs ',' = false),
              (by decide : isJsonWs '"' = false)]

theorem encInt_length_pos (i : Int) : 0 < (encInt i).length := by
  unfold encInt
  by_cases h : i < 0
  · simp [h]
  · simp only [h, if_false]
    exact List.length_pos.mpr (natDigits_ne_nil _)

mutual

theorem jsize_le_enc : ∀ v : Json, jsize v ≤ (encodeV v).length
  | .null => by simp [jsize, encodeV]
  | .bool b => by cases b <;> simp [jsize, encodeV]
  | .inf b => by simp [jsize, encodeV]
  | .num m e => by
    have := encInt_length_pos m
    simp only [jsize, encodeV, encNum, List.length_append]
    omega
  | .str s => by simp [jsize, encodeV]
  | .arr es => by
    match es with
    | .nil => simp [jsize, jsizeL, encodeV, encodeList]
    | .cons v tl =>
      have h1 := jsize_le_enc v
      have h2 := jsizeL_le_sep tl
      simp only [jsize, jsizeL, encodeV, encodeList, List.length_cons,
        List.length_append]
      omega
  | .obj fs => by
    match fs with
    | .nil => simp [jsize, jsizeF, encodeV, encodeFields]
    | .cons k v tl =>
      have h1 := jsize_le_enc v
      have h2 := jsizeF_le_sep tl
      simp only [jsize, jsizeF, encodeV, encodeFields, List.length_cons,
        List.length_append]
      omega

theorem jsizeL_le_sep : ∀ vs : JsonList, jsizeL vs ≤ (sepTailL vs).length
  | .nil => by simp [jsizeL, sepTailL]
  | .cons v tl => by
    have h1 := jsize_le_enc v
    have h2 := jsizeL_le_sep tl
    simp only [jsizeL, sepTailL, List.length_cons, List.length_append]
    omega

theorem jsizeF_le_sep : ∀ fs : JsonFields, jsizeF fs ≤ (sepTailF fs).length
  | .nil => by simp [jsizeF, sepTailF]
  | .cons k v tl => by
    have h1 := jsize_le_enc v
    have h2 := jsizeF_le_sep tl
    simp only [jsizeF, sepTailF, List.length_cons, List.length_append]
    omega

end

/-- Serializing any JSON value and parsing it back always succeeds, and
yields the value's re-read form `jnorm v` (the value itself whenever all of
its numbers are finite; see `jnorm_id`). -/
theorem JSONparse_encodeV (v : Json) : JSONparse (encodeV v) = some (jnorm v) := by
  obtain ⟨c, t, hct, hok⟩ := encodeV_head v
  unfold JSONparse
  have hsw : skipWs (encodeV v) = encodeV v := by
    rw [hct]
    exact skipWs_not_ws _ (headOk_not_jsonWs hok)
  rw [hsw]
  have hfuel : jsize v ≤ (encodeV v).length + 1 := by
    have := jsize_le_enc v
    omega
  have h := (parse_encode_all ((encodeV v).length + 1)).1 v [] hfuel rfl
  rw [List.append_nil] at h
  rw [h]
  simp [skipWs]

mutual

theorem jnorm_id : ∀ v : Json, jfin v = true → jnorm v = v
  | .null, _ => rfl
  | .bool b, _ => rfl
  | .num m e, h => by
    simp only [jfin, Bool.not_eq_true'] at h
    simp [jnorm, h]
  | .inf b, h => by simp [jfin] at h
  | .str s, _ => rfl
  | .arr es, h => by
    simp only [jfin] at h
    simp [jnorm, jnormL_id es h]
  | .obj fs, h => by
    simp only [jfin] at h
    simp [jnorm, jnormF_id fs h]

theorem jnormL_id : ∀ vs : JsonList, jfinL vs = true → jnormL vs = vs
  | .nil, _ => rfl
  | .cons v tl, h => by
    simp only [jfinL, Bool.and_eq_true] at h
    simp [jnormL, jnorm_id v h.1, jnormL_id tl h.2]

theorem jnormF_id : ∀ fs : JsonFields, jfinF fs = true → jnormF fs = fs
  | .nil, _ => rfl
  | .cons k v tl, h => by
    simp only [jfinF, Bool.and_eq_true] at h
    simp [jnormF, jnorm_id v h.1, jnormF_id tl h.2]

end

theorem map_jnorm_id : ∀ l : List Json, l.all jfin = true → l.map jnorm = l
  | [], _ => rfl
  | v :: l, h => by
    simp only [List.all_cons, Bool.and_eq_true] at h
    simp [jnorm_id v h.1, map_jnorm_id l h.2]

theorem hexDigitChar_ne_nl {d : Nat} (h : d < 16) : hexDigitChar d ≠ '\n' := by
  interval_cases d <;> decide

theorem escapeChar_no_nl (c : Char) : '\n' ∉ escapeChar c := by
  unfold escapeChar
  split_ifs with h1 h2 h3 h4 h5 h6 h7 h8
  · decide
  · decide
  · decide
  · decide
  · decide
  · decide
  · decide
  · have hd : c.toNat / 16 < 16 := by omega
    have hm : c.toNat % 16 < 16 := Nat.mod_lt _ (by omega)
    intro hmem
    simp only [List.mem_cons, List.not_mem_nil, or_false] at hmem
    rcases hmem with h | h | h | h | h | h
    · exact absurd h (by decide)
    · exact absurd h (by decide)
    · exact absurd h (by decide)
    · exact absurd h (by decide)
    · exact hexDigitChar_ne_nl hd h.symm
    · exact hexDigitChar_ne_nl hm h.symm
  · intro hmem
    simp only [List.mem_singleton] at hmem
    exact h3 hmem.symm

theorem escapeList_no_nl : ∀ s : List Char, '\n' ∉ escapeList s
  | [] => by decide
  | c :: s => by
    simp only [escapeList, List.mem_append]
    intro h
    rcases h with h | h
    · exact escapeChar_no_nl c h
    · exact escapeList_no_nl s h

theorem natDigits_no_nl (n : Nat) : '\n' ∉ natDigits n := by
  intro h
  exact absurd (natDigits_all_digit h) (by decide)

theorem encInt_no_nl (i : Int) : '\n' ∉ encInt i := by
  unfold encInt
  by_cases h : i < 0
  · simp only [h, if_true, List.mem_cons]
    intro hm
    rcases hm with hm | hm
    · exact absurd hm (by decide)
    · exact natDigits_no_nl _ hm
  · simp only [h, if_false]
    exact natDigits_no_nl _

theorem encNum_no_nl (m e : Int) : '\n' ∉ encNum m e := by
  unfold encNum
  simp only [List.mem_append]
  intro h
  rcases h with h | h
  · exact encInt_no_nl m h
  · by_cases he : e = 0
    · simp [he] at h
    · simp only [he, if_false, List.mem_cons] at h
      rcases h with h | h
      · exact absurd h (by decide)
      · exact encInt_no_nl e h

mutual

theorem encodeV_no_nl : ∀ v : Json, '\n' ∉ encodeV v
  | .null => by decide
  | .bool b => by cases b <;> decide
  | .num m e => encNum_no_nl m e
  | .inf b => by
    show '\n' ∉ 'n' :: 'u' :: 'l' :: 'l' :: []
    decide
  | .str s => by
    show '\n' ∉ '"' :: escapeList s ++ ['"']
    intro h
    rcases List.mem_cons.mp h with h | h
    · exact absurd h (by decide)
    · rcases List.mem_append.mp h with h | h
      · exact escapeList_no_nl s h
      · rcases List.mem_singleton.mp h with h
        exact absurd h (by decide)
  | .arr es => by
    show '\n' ∉ '[' :: encodeList es ++ [']']
    intro h
    rcases List.mem_cons.mp h with h | h
    · exact absurd h (by decide)
    · rcases List.mem_append.mp h with h | h
      · exact encodeList_no_nl es h
      · rcases List.mem_singleton.mp h with h
        exact absurd h (by decide)
  | .obj fs => by
    show '\n' ∉ '{' :: encodeFields fs ++ ['}']
    intro h
    rcases List.mem_cons.mp h with h | h
    · exact absurd h (by decide)
    · rcases List.mem_append.mp h with h | h
      · exact encodeFields_no_nl fs h
      · rcases List.mem_singleton.mp h with h
        exact absurd h (by decide)

theorem encodeList_no_nl : ∀ vs : JsonList, '\n' ∉ encodeList vs
  | .nil => by decide
  | .cons v tl => by
    show '\n' ∉ encodeV v ++ sepTailL tl
    intro h
    rcases List.mem_append.mp h with h | h
    · exact encodeV_no_nl v h
    · exact sepTailL_no_nl tl h

theorem sepTailL_no_nl : ∀ vs : JsonList, '\n' ∉ sepTailL vs
  | .nil => by decide
  | .cons v tl => by
    show '\n' ∉ ',' :: (encodeV v ++ sepTailL tl)
    intro h
    rcases List.mem_cons.mp h with h | h
    · exact absurd h (by decide)
    · rcases List.mem_append.mp h with h | h
      · exact encodeV_no_nl v h
      · exact sepTailL_no_nl tl h

theorem encodeFields_no_nl : ∀ fs : JsonFields, '\n' ∉ encodeFields fs
  | .nil => by decide
  | .cons k v tl => by
    show '\n' ∉ '"' :: escapeList k ++ '"' :: ':' :: (encodeV v ++ sepTailF tl)
    intro h
    rcases List.mem_cons.mp h with h | h
    · exact absurd h (by decide)
    · rcases List.mem_append.mp h with h | h
      · exact escapeList_no_nl k h
      · rcases List.mem_cons.mp h with h | h
        · exact absurd h (by decide)
        · rcases List.mem_cons.mp h with h | h
          · exact absurd h (by decide)
          · rcases List.mem_append.mp h with h | h
            · exact encodeV_no_nl v h
            · exact sepTailF_no_nl tl h

theorem sepTailF_no_nl : ∀ fs : JsonFields, '\n' ∉ sepTailF fs
  | .nil => by decide
  | .cons k v tl => by
    show '\n' ∉ ',' :: ('"' :: escapeList k ++ '"' :: ':' :: (encodeV v ++ sepTailF tl))
    intro h
    rcases List.mem_cons.mp h with h | h
    · exact absurd h (by decide)
    · rcases List.mem_cons.mp h with h | h
      · exact absurd h (by decide)
      · rcases List.mem_append.mp h with h | h
        · exact escapeList_no_nl k h
        · rcases List.mem_cons.mp h with h | h
          · exact absurd h (by decide)
          · rcases List.mem_cons.mp h with h | h
            · exact absurd h (by decide)
            · rcases List.mem_append.mp h with h | h
              · exact encodeV_no_nl v h
              · exact sepTailF_no_nl tl h

end

theorem encodeV_not_blank (v : Json) : blankLine (encodeV v) = false := by
  obtain ⟨c, t, hct, hok⟩ := encodeV_head v
  rw [hct]
  simp [blankLine, headOk_not_trimWs hok]

theorem splitNl_ne_nil : ∀ cs : List Char, splitNl cs ≠ []
  | [] => by simp [splitNl]
  | c :: cs => by
    simp only [splitNl]
    by_cases h : c = '\n'
    · simp [h]
    · simp only [h, if_false]
      cases hs : splitNl cs with
      | nil => simp
      | cons l ls => simp

theorem splitNl_append : ∀ (xs ys : List Char), (∀ c ∈ xs, c ≠ '\n') →
    ∀ h hs, splitNl ys = h :: hs → splitNl (xs ++ ys) = (xs ++ h) :: hs
  | [], ys, _, h, hs, hys => by simpa using hys
  | x :: xs, ys, hnl, h, hs, hys => by
    have hx : x ≠ '\n' := hnl x (List.mem_cons_self x xs)
    have ih := splitNl_append xs ys (fun c hc => hnl c (List.mem_cons_of_mem x hc)) h hs hys
    simp only [List.cons_append, splitNl, hx, if_false, List.append_eq, ih]

theorem splitNl_no_nl (l : List Char) (h : '\n' ∉ l) : splitNl l = [l] := by
  have := splitNl_append l [] (fun c hc => by rintro rfl; exact h hc) [] [] (by simp [splitNl])
  simpa using this

theorem splitNl_joinNl : ∀ ls : List (List Char), ls ≠ [] →
    (∀ l ∈ ls, '\n' ∉ l) → splitNl (joinNl ls) = ls
  | [], hne, _ => absurd rfl hne
  | [l], _, hnl => by
    simp only [joinNl]
    exact splitNl_no_nl l (hnl l (List.mem_singleton.mpr rfl))
  | l :: l2 :: ls, _, hnl => by
    have ih := splitNl_joinNl (l2 :: ls) (by simp)
      (fun x hx => hnl x (List.mem_cons_of_mem l hx))
    have hjoin : joinNl (l :: l2 :: ls) = l ++ '\n' :: joinNl (l2 :: ls) := rfl
    rw [hjoin]
    have hsplit : splitNl ('\n' :: joinNl (l2 :: ls)) = [] :: splitNl (joinNl (l2 :: ls)) := by
      simp [splitNl]
    rw [splitNl_append l _ (fun c hc => by rintro rfl; exact hnl l (List.mem_cons_self _ _) hc)
      [] (splitNl (joinNl (l2 :: ls))) (by rw [hsplit]), ih]
    simp

theorem parseLines_fst : ∀ (k : Nat) (ls : List (List Char)),
    (parseLines k ls).1 =
      ls.filterMap (fun l => if blankLine l then none else JSONparse l)
  | _, [] => rfl
  | k, line :: rest => by
    have ih := parseLines_fst (k + 1) rest
    simp only [parseLines, List.filterMap_cons]
    by_cases hb : blankLine line
    · simp [hb, ih]
    · simp only [Bool.not_eq_true] at hb
      cases hp : JSONparse line with
      | some v => simp [hb, hp, ih]
      | none => simp [hb, hp, ih]

theorem parseLines_snd_mem : ∀ (k : Nat) (ls : List (List Char)) (e : ParsingError),
    e ∈ (parseLines k ls).2 →
    ∃ i, ls.get? i = some e.content ∧ e.line = k + i + 1 ∧
      blankLine e.content = false ∧ JSONparse e.content = none
  | _, [], e, h => by simp [parseLines] at h
  | k, line :: rest, e, h => by
    simp only [parseLines] at h
    by_cases hb : blankLine line
    · simp only [hb, if_true] at h
      obtain ⟨i, h1, h2, h3, h4⟩ := parseLines_snd_mem (k + 1) rest e h
      exact ⟨i + 1, by simpa using h1, by omega, h3, h4⟩
    · simp only [Bool.not_eq_true] at hb
      simp only [hb, Bool.false_eq_true, if_false] at h
      cases hp : JSONparse line with
      | some v =>
        rw [hp] at h
        simp only [] at h
        obtain ⟨i, h1, h2, h3, h4⟩ := parseLines_snd_mem (k + 1) rest e h
        exact ⟨i + 1, by simpa using h1, by omega, h3, h4⟩
      | none =>
        rw [hp] at h
        simp only [List.mem_cons] at h
        rcases h with h | h
        · subst h
          exact ⟨0, rfl, rfl, hb, hp⟩
        · obtain ⟨i, h1, h2, h3, h4⟩ := parseLines_snd_mem (k + 1) rest e h
          exact ⟨i + 1, by simpa using h1, by omega, h3, h4⟩

theorem parseLines_counts : ∀ (k : Nat) (ls : List (List Char)),
    (parseLines k ls).1.length =
      (ls.filter fun l => !blankLine l && (JSONparse l).isSome).length ∧
    (parseLines k ls).2.length =
      (ls.filter fun l => !blankLine l && !(JSONparse l).isSome).length
  | _, [] => ⟨rfl, rfl⟩
  | k, line :: rest => by
    obtain ⟨ih1, ih2⟩ := parseLines_counts (k + 1) rest
    simp only [parseLines, List.filter_cons]
    by_cases hb : blankLine line
    · simp [hb, ih1, ih2]
    · simp only [Bool.not_eq_true] at hb
      cases hp : JSONparse line with
      | some v => simp [hb, hp, ih1, ih2]
      | none => simp [hb, hp, ih1, ih2]

theorem parseLines_sorted : ∀ (k : Nat) (ls : List (List Char)),
    List.Pairwise (fun a b => a.line < b.line) (parseLines k ls).2
  | _, [] => List.Pairwise.nil
  | k, line :: rest => by
    have ih := parseLines_sorted (k + 1) rest
    simp only [parseLines]
    by_cases hb : blankLine line
    · simp [hb, ih]
    · simp only [Bool.not_eq_true] at hb
      cases hp : JSONparse line with
      | some v => simp [hb, hp, ih]
      | none =>
        simp only [hb, hp, Bool.false_eq_true, if_false]
        refine List.Pairwise.cons ?_ ih
        intro e he
        obtain ⟨i, _, h2, _, _⟩ := parseLines_snd_mem (k + 1) rest e he
        show k + 1 < e.line
        omega

theorem parseLines_map_enc : ∀ (k : Nat) (l : List Json),
    parseLines k (l.map encodeV) = (l.map jnorm, [])
  | _, [] => rfl
  | k, v :: l => by
    simp only [List.map_cons, parseLines, encodeV_not_blank v,
      Bool.false_eq_true, if_false, JSONparse_encodeV v,
      parseLines_map_enc (k + 1) l]

/-- Re-importing a serialized collection always succeeds with no parse
errors, and recovers the collection's re-read form (each value normalized by
`jnorm`; the identity whenever every number is finite). -/
theorem parseContent_downloadCode (l : List Json) :
    parseContent (downloadCode l) = (l.map jnorm, []) := by
  unfold parseContent downloadCode
  cases l with
  | nil => rfl
  | cons v l =>
    rw [splitNl_joinNl ((v :: l).map encodeV) (by simp)
      (fun x hx => by
        obtain ⟨w, _, hw⟩ := List.mem_map.mp hx
        rw [← hw]
        exact encodeV_no_nl w)]
    exact parseLines_map_enc 0 (v :: l)

theorem get?_some_lt {α : Type _} :
    ∀ (l : List α) (i : Nat) (x : α), l.get? i = some x → i < l.length
  | [], i, x, h => by simp at h
  | a :: l, 0, x, _ => Nat.succ_pos _
  | a :: l, i + 1, x, h => by
    have := get?_some_lt l i x (by simpa using h)
    simpa using Nat.succ_lt_succ this

theorem get?_set_self {α : Type _} :
    ∀ (l : List α) (i : Nat) (x : α), i < l.length → (l.set i x).get? i = some x
  | [], i, x, h => by simp at h
  | a :: l, 0, x, _ => rfl
  | a :: l, i + 1, x, h => by
    simpa using get?_set_self l i x (by simpa using h)

theorem get?_set_ne {α : Type _} :
    ∀ (l : List α) (i j : Nat) (x : α), i ≠ j → (l.set i x).get? j = l.get? j
  | [], _, _, _, _ => by simp
  | a :: l, 0, 0, x, h => absurd rfl h
  | a :: l, 0, j + 1, x, _ => rfl
  | a :: l, i + 1, 0, x, _ => rfl
  | a :: l, i + 1, j + 1, x, h => by
    simpa using get?_set_ne l i j x (fun he => h (by omega))

theorem filter_and_count {α : Type _} (b p : α → Bool) :
    ∀ ls : List α,
      (ls.filter fun l => b l && p l).length +
        (ls.filter fun l => b l && !p l).length = (ls.filter b).length
  | [] => rfl
  | x :: ls => by
    have ih := filter_and_count b p ls
    by_cases hb : b x <;> by_cases hp : p x <;>
      simp [List.filter_cons, hb, hp, ih] <;> omega

theorem includesL_nil : ∀ h : List Char, includesL h [] = true
  | [] => rfl
  | _ :: _ => rfl

theorem filterWithIndex_sublist :
    ∀ (p : Json → Nat → Bool) (cs : List Json) (i : Nat),
      (filterWithIndex p cs i).Sublist cs
  | _, [], _ => List.Sublist.slnil
  | p, c :: cs, i => by
    simp only [filterWithIndex]
    by_cases h : p c i
    · simpa [h] using List.Sublist.cons₂ c (filterWithIndex_sublist p cs (i + 1))
    · simpa [h] using List.Sublist.cons c (filterWithIndex_sublist p cs (i + 1))

theorem filterWithIndex_all_true :
    ∀ (p : Json → Nat → Bool) (cs : List Json) (i : Nat),
      (∀ c j, p c j = true) → filterWithIndex p cs i = cs
  | _, [], _, _ => rfl
  | p, c :: cs, i, hall => by
    simp [filterWithIndex, hall c i, filterWithIndex_all_true p cs (i + 1) hall]

theorem filterWithIndex_enumFrom :
    ∀ (p : Json → Nat → Bool) (cs : List Json) (k : Nat),
      filterWithIndex p cs k =
        ((cs.enumFrom k).filter (fun pr => p pr.2 pr.1)).map Prod.snd
  | _, [], _ => rfl
  | p, c :: cs, k => by
    have ih := filterWithIndex_enumFrom p cs (k + 1)
    by_cases h : p c k <;>
      simp [filterWithIndex, List.enumFrom, List.filter_cons, h, ih]

/-- C1: for every input text, import partitions the non-blank lines: the
conversation collection holds exactly as many entries as there are non-blank
lines that parse as structurally valid JSON, the error list exactly as many
as there are non-blank lines that fail to parse, and together they account
for every non-blank line; blank lines reach neither list. -/
theorem partition_of_lines (content : List Char) :
    (parseContent content).1.length =
      ((splitNl content).filter fun l => !blankLine l && (JSONparse l).isSome).length ∧
    (parseContent content).2.length =
      ((splitNl content).filter fun l => !blankLine l && !(JSONparse l).isSome).length ∧
    (parseContent content).1.length + (parseContent content).2.length =
      ((splitNl content).filter fun l => !blankLine l).length := by
  unfold parseContent
  obtain ⟨h1, h2⟩ := parseLines_counts 0 (splitNl content)
  refine ⟨h1, h2, ?_⟩
  rw [h1, h2]
  exact filter_and_count (fun l => !blankLine l) (fun l => (JSONparse l).isSome)
    (splitNl content)

set_option maxRecDepth 8000 in
/-- Counterexample for C2: the round trip fails on a collection produced by
importing the line `1e400`.  The literal overflows the IEEE-754 double range,
so `JSON.parse` yields `Infinity`; `JSON.stringify` serializes `Infinity` as
`null`, and re-importing the export yields `[null]`, which is not
structurally equal to the imported collection. -/
theorem round_trip_overflow :
    (parseContent ['1', 'e', '4', '0', '0']).1 = [Json.inf false] ∧
    parseContent (downloadCode [Json.inf false]) = ([Json.null], []) ∧
    Json.null ≠ Json.inf false :=
  ⟨rfl, rfl, fun h => Json.noConfusion h⟩

/-- C2 (amended): for every conversation collection in which every number is
finite (no numeric literal overflowed to Infinity during import), re-parsing
the serialized export (each conversation serialized to one JSON line, joined
by newlines) yields exactly the original collection and no parse errors.
Collections containing Infinity do not round trip, because `JSON.stringify`
serializes Infinity as `null`. -/
theorem import_export_round_trip (conversations : List Json)
    (hfin : conversations.all jfin = true) :
    parseContent (downloadCode conversations) = (conversations, []) := by
  rw [parseContent_downloadCode conversations, map_jnorm_id conversations hfin]

set_option maxRecDepth 8000 in
/-- Witness for C2 at a concrete collection of finite values. -/
theorem import_export_round_trip_witness :
    parseContent (downloadCode [Json.num 5 (-1), Json.arr (.cons Json.null .nil)]) =
      ([Json.num 5 (-1), Json.arr (.cons Json.null .nil)], []) :=
  import_export_round_trip [Json.num 5 (-1), Json.arr (.cons Json.null .nil)]
    (by decide)

/-- C3: after an import the selection is "none", and after an edit that
targets the selected conversation (the only edits the interface issues:
`handleMessageEdit` is invoked with `conversations.indexOf(selectedConversation)`)
the selection refers to a conversation present in the collection at the same
valid position; it never dangles. -/
theorem selection_validity :
    (∀ (s : StoreState) (p : List Conversation) (errs : List ParsingError),
      (parseContentStore s p errs).selectedConversation = none) ∧
    (∀ (s : StoreState) (ci mi : Nat) (sel : Conversation),
      s.selectedConversation = some sel →
      s.conversations.get? ci = some sel →
      ∃ sel2, (handleMessageEdit s ci mi).selectedConversation = some sel2 ∧
        (handleMessageEdit s ci mi).conversations.get? ci = some sel2) := by
  constructor
  · intro s p errs
    rfl
  · intro s ci mi sel hsel hci
    refine ⟨{ sel with messages := editMessages sel.messages mi s.editedContent },
      ?_, ?_⟩
    · simp [handleMessageEdit, hsel]
    · simp only [handleMessageEdit, hci]
      exact get?_set_self _ _ _ (get?_some_lt _ _ _ hci)

/-- Witness for C3 at a concrete store: after editing the selected
conversation, the collection at the edited position holds exactly the
selected conversation. -/
theorem selection_validity_witness :
    (handleMessageEdit sampleStore 0 0).conversations.get? 0 =
      (handleMessageEdit sampleStore 0 0).selectedConversation := by
  obtain ⟨sel2, h1, h2⟩ := selection_validity.2 sampleStore 0 0 conv1 rfl rfl
  rw [h1, h2]

/-- C4: editing message `mi` of conversation `ci` replaces only that
message's content with the draft text; the edited message keeps its role,
every other message of the conversation is unchanged, and every other
conversation is unchanged. -/
theorem edit_isolation (s : StoreState) (ci mi : Nat) (conv : Conversation)
    (msg : Message) (hc : s.conversations.get? ci = some conv)
    (hm : conv.messages.get? mi = some msg) :
    ∃ conv2, (handleMessageEdit s ci mi).conversations.get? ci = some conv2 ∧
      conv2.messages.get? mi = some ⟨msg.role, s.editedContent⟩ ∧
      (∀ mj, mj ≠ mi → conv2.messages.get? mj = conv.messages.get? mj) ∧
      (∀ cj, cj ≠ ci →
        (handleMessageEdit s ci mi).conversations.get? cj = s.conversations.get? cj) := by
  refine ⟨{ conv with messages := editMessages conv.messages mi s.editedContent },
    ?_, ?_, ?_, ?_⟩
  · simp only [handleMessageEdit, hc]
    exact get?_set_self _ _ _ (get?_some_lt _ _ _ hc)
  · simp only [editMessages, hm]
    exact get?_set_self _ _ _ (get?_some_lt _ _ _ hm)
  · intro mj hne
    simp only [editMessages, hm]
    exact get?_set_ne _ _ _ _ (fun he => hne he.symm)
  · intro cj hne
    simp only [handleMessageEdit, hc]
    exact get?_set_ne _ _ _ _ (fun he => hne he.symm)

/-- Witness for C4 at a concrete store: the edited message's content equals
the draft text. -/
theorem edit_isolation_witness :
    ((handleMessageEdit sampleStore 0 0).conversations.get? 0).bind
        (fun c => c.messages.get? 0) =
      some ⟨('u' :: 's' :: 'e' :: 'r' :: []), ('e' :: 'd' :: 'i' :: 't' :: [])⟩ := by
  obtain ⟨conv2, h1, h2, _, _⟩ := edit_isolation sampleStore 0 0 conv1 msg1 rfl rfl
  rw [h1]
  simpa using h2

/-- Counterexample for C5: at a concrete store with an in-progress edit,
the store update of an import (`parseContentStore`) leaves the edit target
and the draft content untouched, and selection leaves the draft content
untouched — the claimed clearing does not happen. -/
theorem edit_state_not_cleared :
    (parseContentStore editingStore [] []).editingMessage = some 0 ∧
    (parseContentStore editingStore [] []).editedContent =
      ('d' :: 'r' :: 'a' :: 'f' :: 't' :: []) ∧
    (handleConversationSelect editingStore 0).editedContent =
      ('d' :: 'r' :: 'a' :: 'f' :: 't' :: []) :=
  ⟨rfl, by decide, by decide⟩

/-- C5 (amended): import resets the selection to "none" and leaves the edit
target and draft content unchanged; selecting a conversation clears the edit
target but leaves the draft content unchanged. -/
theorem import_select_edit_state (s : StoreState) (p : List Conversation)
    (errs : List ParsingError) (i : Nat) :
    (parseContentStore s p errs).selectedConversation = none ∧
    (parseContentStore s p errs).editingMessage = s.editingMessage ∧
    (parseContentStore s p errs).editedContent = s.editedContent ∧
    (handleConversationSelect s i).editingMessage = none ∧
    (handleConversationSelect s i).editedContent = s.editedContent :=
  ⟨rfl, rfl, rfl, rfl, rfl⟩

/-- C6: the conversation collection produced by import is exactly the
successfully parsed non-blank lines in source order, and every recorded
parse error carries the failing line's 1-based position and its original
untrimmed text. -/
theorem order_preservation (content : List Char) :
    (parseContent content).1 =
      (splitNl content).filterMap
        (fun l => if blankLine l then none else JSONparse l) ∧
    ∀ e ∈ (parseContent content).2,
      1 ≤ e.line ∧ (splitNl content).get? (e.line - 1) = some e.content ∧
        blankLine e.content = false ∧ JSONparse e.content = none := by
  refine ⟨parseLines_fst 0 (splitNl content), ?_⟩
  intro e he
  obtain ⟨i, h1, h2, h3, h4⟩ := parseLines_snd_mem 0 (splitNl content) e he
  have hi : e.line - 1 = i := by omega
  exact ⟨by omega, by rw [hi]; exact h1, h3, h4⟩

/-- Witness for C6 at the concrete input `nope`: the single recorded error
points at line 1 and carries the original line text, which is non-blank and
unparsable. -/
theorem order_preservation_witness :
    1 ≤ (ParsingError.mk 1 ['n', 'o', 'p', 'e']).line ∧
    (splitNl ['n', 'o', 'p', 'e']).get?
        ((ParsingError.mk 1 ['n', 'o', 'p', 'e']).line - 1) =
      some (ParsingError.mk 1 ['n', 'o', 'p', 'e']).content ∧
    blankLine (ParsingError.mk 1 ['n', 'o', 'p', 'e']).content = false ∧
    JSONparse (ParsingError.mk 1 ['n', 'o', 'p', 'e']).content = none :=
  (order_preservation ['n', 'o', 'p', 'e']).2 ⟨1, ['n', 'o', 'p', 'e']⟩ (by decide)

/-- C7: requesting export on an empty conversation collection signals the
user-visible error message and produces no file. -/
theorem empty_export_error (conversations : List Json)
    (h : conversations.length = 0) :
    handleDownload conversations = Except.error noDataMsg := by
  simp [handleDownload, h]

/-- Witness for C7: exporting the empty collection yields the error. -/
theorem empty_export_error_witness :
    handleDownload [] = Except.error noDataMsg :=
  empty_export_error [] rfl

/-- Counterexample for C8: the filter is not idempotent.  Filtering two
structurally equal conversations with the query `2` keeps only the second
(matched through its synthetic label `Conversation 2`); filtering the result
again with the same query removes it, because its label is recomputed from
its new position. -/
theorem filter_not_idempotent :
    (filteredConversations twoEmptyObjs ('2' :: [])).length = 1 ∧
    (filteredConversations (filteredConversations twoEmptyObjs ('2' :: []))
        ('2' :: [])).length = 0 :=
  ⟨rfl, rfl⟩

/-- C8 (amended): for every query and collection the filtered view is the
exact ordered subsequence of conversations whose serialized text or whose
synthetic label (from the 1-based position in the unfiltered collection)
contains the query case-insensitively; the empty query keeps everything, and
filtering is non-mutating (a pure derived view).  Idempotency does not hold
in general, because the synthetic labels are recomputed from positions in
the list being filtered. -/
theorem filter_characterization (C : List Json) (q : List Char) :
    (filteredConversations C q).Sublist C ∧
    filteredConversations C [] = C ∧
    filteredConversations C q =
      ((C.enumFrom 0).filter (fun pr => convMatches (lowerL q) pr.2 pr.1)).map
        Prod.snd := by
  refine ⟨filterWithIndex_sublist _ _ _, ?_, filterWithIndex_enumFrom _ _ _⟩
  exact filterWithIndex_all_true _ _ _
    (fun c j => by simp [convMatches, lowerL, includesL_nil])

/-- C9: whenever export produces a file, every line of that file is
non-blank and structurally valid JSON, and re-importing the exported text
yields an empty parse-error list. -/
theorem export_reimportable (conversations : List Json) :
    (parseContent (downloadCode conversations)).2 = [] ∧
    ∀ file, handleDownload conversations = Except.ok file →
      ∀ line ∈ splitNl file,
        blankLine line = false ∧ (JSONparse line).isSome = true := by
  constructor
  · rw [parseContent_downloadCode conversations]
  · intro file hfile line hline
    unfold handleDownload at hfile
    by_cases h : conversations.length = 0
    · simp [h] at hfile
    · simp only [h, if_false] at hfile
      obtain rfl : downloadCode conversations = file := by
        simpa using hfile
      cases conversations with
      | nil => simp at h
      | cons v l =>
        unfold downloadCode at hline
        rw [splitNl_joinNl ((v :: l).map encodeV) (by simp)
          (fun x hx => by
            obtain ⟨w, _, hw⟩ := List.mem_map.mp hx
            rw [← hw]
            exact encodeV_no_nl w)] at hline
        obtain ⟨w, _, hw⟩ := List.mem_map.mp hline
        rw [← hw]
        exact ⟨encodeV_not_blank w, by rw [JSONparse_encodeV w]; rfl⟩

/-- Witness for C9: the export of the one-element collection `[null]` is a
single non-blank valid line, and re-import gives no errors. -/
theorem export_reimportable_witness :
    (parseContent (downloadCode [Json.null])).2 = [] ∧
    (blankLine (encodeV Json.null) = false ∧
      (JSONparse (encodeV Json.null)).isSome = true) :=
  ⟨(export_reimportable [Json.null]).1,
    (export_reimportable [Json.null]).2 (downloadCode [Json.null]) rfl
      (encodeV Json.null) (by decide)⟩

/-- C10: the error list produced by import is strictly increasing in its
1-based line numbers, and every recorded line number lies between 1 and the
number of lines of the input. -/
theorem error_line_numbers (content : List Char) :
    List.Pairwise (fun a b => a.line < b.line) (parseContent content).2 ∧
    ∀ e ∈ (parseContent content).2,
      1 ≤ e.line ∧ e.line ≤ (splitNl content).length := by
  refine ⟨parseLines_sorted 0 _, ?_⟩
  intro e he
  obtain ⟨i, h1, h2, _, _⟩ := parseLines_snd_mem 0 _ e he
  have hlt := get?_some_lt _ _ _ h1
  exact ⟨by omega, by omega⟩

/-- Witness for C10 at the concrete two-line input `x\nx`: the second
error's line number lies within the input's line range. -/
theorem error_line_numbers_witness :
    1 ≤ (ParsingError.mk 2 ['x']).line ∧
    (ParsingError.mk 2 ['x']).line ≤ (splitNl ['x', '\n', 'x']).length :=
  (error_line_numbers ['x', '\n', 'x']).2 ⟨2, ['x']⟩ (by decide)

end JsonlWizard
